import Mathlib

/-!
Verification of the ranked-choice tabulation core of `rcv.py` against its
specification.

The shallow embedding translates the Python source:
* a ballot's rank slot (`None` / `'OVER'` / candidate string) becomes the
  tagged type `Slot`; Python truthiness of a candidate string (`v and ...`)
  is translated as the string being nonempty;
* Python dictionaries of counters become total functions (`Mat`) paired,
  where the claims need the key set, with an explicitly constructed key
  list; every increment the source performs hits a key the source
  initialised (proved below), so updating the function is faithful;
* Python's `Counter(...).most_common()` (a stable descending sort of the
  counts, keys in first-appearance order) becomes `sortDesc` applied to
  `firstCounts`; `sorted` in Python is stable, and any stable sort by the
  same key yields the same list, so a stable insertion sort is a faithful
  model;
* `v > nonexhausted / 2` compares an integer with an exact half, so it is
  rendered as `2 * v > nonexhausted` over `Nat`;
* the unbounded `itertools.count(1)` loop of `run_irv` becomes a
  fuel-indexed recursion returning `none` when the fuel is exhausted;
  exceptions (`IndexError` on `[]`-indexing, `UnboundLocalError` for the
  variable `eliminated`, which the source assigns only under
  `if verbose:`) become an explicit error value.
-/

/-- One rank slot of a ballot:
`Ballot.add_ballotimage_line` stores `'OVER'` (overvote), `None`
(undervote), or the candidate name. -/
inductive Slot where
  | over : Slot
  | blank : Slot
  | cand (c : String) : Slot
deriving DecidableEq, Repr

/-- `class Ballot`: the `votes` list of rank slots.  The `precinct`
attribute is informational only and never read by the tabulators, so it is
omitted.  The source initialises `votes = [None, None, None]` (three rank
slots). -/
structure Ballot where
  votes : List Slot
deriving DecidableEq, Repr

/-- The number of rank slots a ballot holds: `self.votes = [None, None,
None]` in `Ballot.__init__`. -/
def ranksAllowed : Nat := 3

/-- The loop of `Ballot.cleaned_votes`, with the accumulator `votes`
explicit: break at `'OVER'`, and append `v` when `v and v not in votes`
(truthy, i.e. a nonempty string, and not yet collected). -/
def cleanedLoop : List Slot → List String → List String
  | [], acc => acc
  | Slot.over :: _, acc => acc
  | Slot.blank :: rest, acc => cleanedLoop rest acc
  | Slot.cand c :: rest, acc =>
      if c ≠ "" ∧ c ∉ acc then cleanedLoop rest (acc ++ [c])
      else cleanedLoop rest acc

/-- `Ballot.cleaned_votes`. -/
def Ballot.cleaned_votes (b : Ballot) : List String :=
  cleanedLoop b.votes []

/-- Keep the truthy candidate of a slot, if any (spec-side helper). -/
def truthyCand : Slot → Option String
  | Slot.cand c => if c = "" then none else some c
  | _ => none

/-- Drop every repetition of an element already seen earlier in the list,
keeping first occurrences (spec-side helper). -/
def dedupFirst : List String → List String
  | [] => []
  | x :: xs => x :: (dedupFirst xs).filter (fun y => y ≠ x)

/-- The cleaned vote sequence as the specification words it: stop at the
first overvote marker, skip empty slots, collapse duplicates to the
earliest occurrence. -/
def specCleaned (slots : List Slot) : List String :=
  dedupFirst ((slots.takeWhile (fun s => s ≠ Slot.over)).filterMap truthyCand)

theorem dedupFirst_nodup : ∀ l : List String, (dedupFirst l).Nodup := by
  intro l
  induction l with
  | nil => simp [dedupFirst]
  | cons x xs ih =>
      simp only [dedupFirst, List.nodup_cons]
      constructor
      · intro hx
        have := (List.mem_filter.mp hx).2
        simp at this
      · exact ih.filter _

theorem mem_dedupFirst {x : String} : ∀ {l : List String}, x ∈ dedupFirst l ↔ x ∈ l := by
  intro l
  induction l with
  | nil => simp [dedupFirst]
  | cons y ys ih =>
      simp only [dedupFirst, List.mem_cons]
      constructor
      · rintro (rfl | h)
        · exact Or.inl rfl
        · exact Or.inr (ih.mp (List.mem_filter.mp h).1)
      · rintro (rfl | h)
        · exact Or.inl rfl
        · by_cases hxy : x = y
          · exact Or.inl hxy
          · exact Or.inr (List.mem_filter.mpr ⟨ih.mpr h, by simpa using hxy⟩)

theorem cleanedLoop_eq (slots : List Slot) :
    ∀ acc : List String,
      cleanedLoop slots acc =
        acc ++ (specCleaned slots).filter (fun y => decide (y ∉ acc)) := by
  induction slots with
  | nil => intro acc; simp [cleanedLoop, specCleaned, dedupFirst]
  | cons s rest ih =>
      intro acc
      cases s with
      | over => simp [cleanedLoop, specCleaned, List.takeWhile, dedupFirst]
      | blank =>
          rw [cleanedLoop, ih]
          simp [specCleaned, List.takeWhile, truthyCand]
      | cand c =>
          by_cases hc : c = ""
          · subst hc
            rw [cleanedLoop, if_neg (by simp), ih]
            simp [specCleaned, List.takeWhile, truthyCand]
          · have hspec : specCleaned (Slot.cand c :: rest) =
                c :: (specCleaned rest).filter (fun y => y ≠ c) := by
              simp [specCleaned, List.takeWhile, truthyCand, hc, dedupFirst]
            by_cases hmem : c ∈ acc
            · rw [cleanedLoop, if_neg (by simp [hmem]), ih, hspec]
              have h1 : (decide (c ∉ acc)) = false := by simp [hmem]
              rw [List.filter_cons, h1]
              congr 1
              rw [List.filter_filter]
              apply List.filter_congr
              intro y _
              by_cases hy : y ∈ acc
              · simp [hy]
              · simp [hy]
                intro h; exact absurd (h ▸ hmem) hy
            · rw [cleanedLoop, if_pos ⟨hc, hmem⟩, ih, hspec]
              have h1 : (decide (c ∉ acc)) = true := by simp [hmem]
              rw [List.filter_cons, h1]
              simp only [List.append_assoc, List.singleton_append]
              congr 2
              rw [List.filter_filter]
              apply List.filter_congr
              intro y _
              by_cases hy : y ∈ acc
              · simp [hy]
              · by_cases hyc : y = c <;> simp [hy, hyc]

theorem cleaned_votes_eq_specCleaned (b : Ballot) :
    b.cleaned_votes = specCleaned b.votes := by
  rw [Ballot.cleaned_votes, cleanedLoop_eq b.votes []]
  simp

theorem cleaned_votes_nodup (b : Ballot) : b.cleaned_votes.Nodup := by
  rw [cleaned_votes_eq_specCleaned]
  exact dedupFirst_nodup _

/-- C1: `cleaned_votes` is exactly the spec's normalization — truncate at
the first overvote marker, skip empty slots, collapse duplicate rankings
to the earliest occurrence — and on the spec's two examples, a ballot
ranking `[A, OVER, C]` cleans to `[A]` and `[A, A, B]` cleans to
`[A, B]`. -/
theorem cleaned_votes_correct :
    (∀ b : Ballot, b.cleaned_votes = specCleaned b.votes) ∧
      (Ballot.mk [Slot.cand "A", Slot.over, Slot.cand "C"]).cleaned_votes = ["A"] ∧
      (Ballot.mk [Slot.cand "A", Slot.cand "A", Slot.cand "B"]).cleaned_votes = ["A", "B"] :=
  ⟨cleaned_votes_eq_specCleaned, by decide, by decide⟩

/-- Insertion of one element into an insertion-ordered key list, as a
Python `set.add` / fresh-dict-key write behaves for membership. -/
def insertKey (ks : List String) (x : String) : List String :=
  if x ∈ ks then ks else ks ++ [x]

/-- Key list of a Python collection built by repeated insertion
(first-appearance order). -/
def keysInOrder (xs : List String) : List String :=
  xs.foldl insertKey []

/-- `candidates = set(); for v in votes: candidates.update(v)` in
`pairwise_preferences`.  Python set iteration order is unspecified; only
membership in the set matters to any claim, and this model fixes
first-appearance order. -/
def candidatesOf (votes : List (List String)) : List String :=
  votes.foldl (fun ks v => v.foldl insertKey ks) []

theorem mem_foldl_insertKey (x : String) :
    ∀ (l ks : List String), x ∈ l.foldl insertKey ks ↔ x ∈ ks ∨ x ∈ l := by
  intro l
  induction l with
  | nil => simp
  | cons y ys ih =>
      intro ks
      rw [List.foldl_cons, ih]
      unfold insertKey
      by_cases hy : y ∈ ks
      · rw [if_pos hy]
        constructor
        · rintro (h | h)
          · exact Or.inl h
          · exact Or.inr (List.mem_cons_of_mem _ h)
        · rintro (h | h)
          · exact Or.inl h
          · rcases List.mem_cons.mp h with rfl | h
            · exact Or.inl hy
            · exact Or.inr h
      · rw [if_neg hy]
        simp only [List.mem_append, List.mem_singleton, List.mem_cons]
        tauto

theorem nodup_foldl_insertKey :
    ∀ (l ks : List String), ks.Nodup → (l.foldl insertKey ks).Nodup := by
  intro l
  induction l with
  | nil => intro ks h; simpa using h
  | cons y ys ih =>
      intro ks h
      rw [List.foldl_cons]
      apply ih
      unfold insertKey
      by_cases hy : y ∈ ks
      · rwa [if_pos hy]
      · rw [if_neg hy]
        simpa [List.nodup_append] using ⟨h, hy⟩

theorem mem_candidatesOf {x : String} {votes : List (List String)} :
    x ∈ candidatesOf votes ↔ ∃ v ∈ votes, x ∈ v := by
  unfold candidatesOf
  suffices h : ∀ ks, x ∈ votes.foldl (fun ks v => v.foldl insertKey ks) ks ↔
      x ∈ ks ∨ ∃ v ∈ votes, x ∈ v by
    simpa using h []
  induction votes with
  | nil => simp
  | cons v vs ih =>
      intro ks
      rw [List.foldl_cons, ih, mem_foldl_insertKey]
      simp only [List.mem_cons]
      constructor
      · rintro ((h | h) | ⟨w, hw, hx⟩)
        · exact Or.inl h
        · exact Or.inr ⟨v, Or.inl rfl, h⟩
        · exact Or.inr ⟨w, Or.inr hw, hx⟩
      · rintro (h | ⟨w, (rfl | hw), hx⟩)
        · exact Or.inl (Or.inl h)
        · exact Or.inl (Or.inr hx)
        · exact Or.inr ⟨w, hw, hx⟩

theorem candidatesOf_nodup (votes : List (List String)) :
    (candidatesOf votes).Nodup := by
  unfold candidatesOf
  suffices h : ∀ ks : List String, ks.Nodup →
      (votes.foldl (fun ks v => v.foldl insertKey ks) ks).Nodup by
    exact h [] List.nodup_nil
  induction votes with
  | nil => intro ks h; simpa using h
  | cons v vs ih =>
      intro ks h
      rw [List.foldl_cons]
      exact ih _ (nodup_foldl_insertKey v ks h)

/-- The value part of a Python dict from ordered candidate pairs to
counts. -/
def Mat : Type := String × String → Nat

/-- `for d in ds: prefs[(c, d)] += 1`, with the dict as function state. -/
def bumpPairs (prefs : Mat) (c : String) (ds : List String) : Mat :=
  ds.foldl (fun m d => fun p => if p = (c, d) then m p + 1 else m p) prefs

/-- The tally loop body of `pairwise_preferences` for one cleaned
sequence, recursing over `enumerate(v)` with the current suffix:
`for d in v[i+1:]: prefs[(c, d)] += 1` then
`for d in candidates - set(v): prefs[(c, d)] += 1`. -/
def addBallotAux (cands fullV : List String) : Mat → List String → Mat
  | prefs, [] => prefs
  | prefs, c :: rest =>
      addBallotAux cands fullV
        (bumpPairs (bumpPairs prefs c rest) c
          (cands.filter (fun d => decide (d ∉ fullV)))) rest

/-- One ballot's full contribution to the preference tally. -/
def addBallot (cands : List String) (prefs : Mat) (v : List String) : Mat :=
  addBallotAux cands v prefs v

/-- `pairwise_preferences`: the key list the init loop creates (every
ordered pair of distinct candidates) together with the tallied counts. -/
def pairwise_preferences (ballots : List Ballot) :
    List (String × String) × Mat :=
  let votes := ballots.map Ballot.cleaned_votes
  let cands := candidatesOf votes
  (cands.flatMap (fun a =>
      (cands.filter (fun b => decide (a ≠ b))).map (fun b => (a, b))),
   votes.foldl (addBallot cands) (fun _ => 0))

/-- `a` is ranked strictly before `b`: some occurrence of `a` has an
occurrence of `b` strictly later in the sequence. -/
def ranksBefore : List String → String → String → Bool
  | [], _, _ => false
  | c :: rest, a, b => (decide (c = a) && decide (b ∈ rest)) || ranksBefore rest a b

theorem ranksBefore_mem {l : List String} {a b : String}
    (h : ranksBefore l a b = true) : b ∈ l := by
  induction l with
  | nil => simp [ranksBefore] at h
  | cons c rest ih =>
      rw [ranksBefore, Bool.or_eq_true, Bool.and_eq_true] at h
      rcases h with ⟨_, h⟩ | h
      · exact List.mem_cons_of_mem _ (of_decide_eq_true h)
      · exact List.mem_cons_of_mem _ (ih h)

theorem ranksBefore_of_not_mem {l : List String} {a b : String}
    (h : a ∉ l) : ranksBefore l a b = false := by
  induction l with
  | nil => rfl
  | cons c rest ih =>
      rw [ranksBefore]
      have hca : ¬ c = a := fun hc => h (hc ▸ List.mem_cons_self c rest)
      simp only [List.mem_cons] at h
      push_neg at h
      simp [hca, ih h.2]

theorem bumpPairs_apply (c : String) (a b : String) :
    ∀ (ds : List String) (prefs : Mat),
      bumpPairs prefs c ds (a, b) =
        prefs (a, b) + (if a = c then ds.count b else 0) := by
  intro ds
  induction ds with
  | nil => intro prefs; simp [bumpPairs]
  | cons d ds ih =>
      intro prefs
      have step : bumpPairs prefs c (d :: ds) (a, b) =
          bumpPairs (fun p => if p = (c, d) then prefs p + 1 else prefs p) c ds (a, b) := rfl
      rw [step, ih, List.count_cons]
      simp only [beq_iff_eq]
      by_cases hac : a = c
      · by_cases hbd : b = d
        · have he : ((a, b) : String × String) = (c, d) := by rw [hac, hbd]
          rw [if_pos he, if_pos hac, if_pos hac, if_pos hbd.symm]
          omega
        · have he : ((a, b) : String × String) ≠ (c, d) := by
            intro h; exact hbd (congrArg Prod.snd h)
          have hdb : ¬ d = b := fun h => hbd h.symm
          rw [if_neg he, if_pos hac, if_pos hac, if_neg hdb]
          omega
      · have he : ((a, b) : String × String) ≠ (c, d) := by
          intro h; exact hac (congrArg Prod.fst h)
        rw [if_neg he, if_neg hac, if_neg hac]

theorem addBallotAux_apply (cands fullV : List String) (a b : String)
    (hcands : cands.Nodup) :
    ∀ (s : List String) (prefs : Mat), s.Nodup →
      addBallotAux cands fullV prefs s (a, b) =
        prefs (a, b) + (if ranksBefore s a b then 1 else 0) +
          (if a ∈ s ∧ b ∈ cands ∧ b ∉ fullV then 1 else 0) := by
  intro s
  induction s with
  | nil => intro prefs _; simp [addBallotAux, ranksBefore]
  | cons c rest ih =>
      intro prefs hn
      have hcrest : c ∉ rest := (List.nodup_cons.mp hn).1
      have hrest : rest.Nodup := (List.nodup_cons.mp hn).2
      rw [addBallotAux, ih _ hrest, bumpPairs_apply, bumpPairs_apply]
      have hfc : (cands.filter (fun d => decide (d ∉ fullV))).count b =
          if b ∈ cands ∧ b ∉ fullV then 1 else 0 := by
        by_cases hb : b ∈ cands ∧ b ∉ fullV
        · rw [if_pos hb]
          exact List.count_eq_one_of_mem (hcands.filter _)
            (List.mem_filter.mpr ⟨hb.1, by simp [hb.2]⟩)
        · rw [if_neg hb, List.count_eq_zero]
          intro hmem
          have := List.mem_filter.mp hmem
          exact hb ⟨this.1, by simpa using this.2⟩
      have hrc : rest.count b = if b ∈ rest then 1 else 0 := by
        by_cases hbr : b ∈ rest
        · rw [if_pos hbr]; exact List.count_eq_one_of_mem hrest hbr
        · rw [if_neg hbr, List.count_eq_zero]; exact hbr
      rw [hfc, hrc]
      by_cases hac : a = c
      · have hanr : a ∉ rest := hac ▸ hcrest
        have hrb0 : ranksBefore rest a b = false := ranksBefore_of_not_mem hanr
        have hca : c = a := hac.symm
        have hrb1 : ranksBefore (c :: rest) a b = decide (b ∈ rest) := by
          simp [ranksBefore, hca, hrb0]
        have hmem1 : a ∈ c :: rest := by rw [hac]; exact List.mem_cons_self c rest
        rw [hrb1, if_pos hac, if_pos hac, hrb0]
        have hmm : (a ∈ c :: rest ∧ b ∈ cands ∧ b ∉ fullV) ↔ (b ∈ cands ∧ b ∉ fullV) := by
          simp [hmem1]
        rw [if_congr hmm rfl rfl]
        have hmm2 : (a ∈ rest ∧ b ∈ cands ∧ b ∉ fullV) ↔ False := by simp [hanr]
        rw [if_congr hmm2 rfl rfl]
        by_cases hbr : b ∈ rest <;> simp [hbr] <;> omega
      · have hca : ¬ c = a := fun h => hac h.symm
        have hrb1 : ranksBefore (c :: rest) a b = ranksBefore rest a b := by
          simp [ranksBefore, hca]
        rw [hrb1, if_neg hac, if_neg hac]
        have hmm : (a ∈ c :: rest ∧ b ∈ cands ∧ b ∉ fullV) ↔
            (a ∈ rest ∧ b ∈ cands ∧ b ∉ fullV) := by
          simp [List.mem_cons, hac]
        rw [if_congr hmm rfl rfl]
        omega

theorem addBallot_apply (cands : List String) (v : List String) (a b : String)
    (hcands : cands.Nodup) (hv : v.Nodup) (hb : b ∈ cands) (prefs : Mat) :
    addBallot cands prefs v (a, b) =
      prefs (a, b) + (if ranksBefore v a b ∨ (a ∈ v ∧ b ∉ v) then 1 else 0) := by
  rw [addBallot, addBallotAux_apply cands v a b hcands v prefs hv]
  cases hrb : ranksBefore v a b with
  | true =>
      have hbv : b ∈ v := ranksBefore_mem hrb
      simp [hbv]
  | false =>
      by_cases hav : a ∈ v <;> by_cases hbv : b ∈ v <;> simp [hav, hbv, hb] <;> omega

/-- The claim's per-ballot predicate: the cleaned sequence ranks `a`
strictly before `b`, or ranks `a` and does not rank `b` at all. -/
def prefersOver (v : List String) (a b : String) : Bool :=
  ranksBefore v a b || (decide (a ∈ v) && !(decide (b ∈ v)))

theorem foldl_addBallot_apply (cands : List String) (a b : String)
    (hcands : cands.Nodup) (hb : b ∈ cands) :
    ∀ (votes : List (List String)) (prefs : Mat), (∀ v ∈ votes, v.Nodup) →
      votes.foldl (addBallot cands) prefs (a, b) =
        prefs (a, b) + (votes.filter (fun v => prefersOver v a b)).length := by
  intro votes
  induction votes with
  | nil => intro prefs _; simp
  | cons v vs ih =>
      intro prefs hnd
      rw [List.foldl_cons, ih _ (fun w hw => hnd w (List.mem_cons_of_mem _ hw)),
        addBallot_apply cands v a b hcands (hnd v (List.mem_cons_self v vs)) hb,
        List.filter_cons]
      cases hp : prefersOver v a b with
      | true =>
          have : ranksBefore v a b = true ∨ (a ∈ v ∧ b ∉ v) := by
            rcases Bool.or_eq_true _ _ |>.mp hp with h | h
            · exact Or.inl h
            · rcases Bool.and_eq_true _ _ |>.mp h with ⟨h1, h2⟩
              exact Or.inr ⟨by simpa using h1, by simpa using h2⟩
          simp only [if_pos this]
          simp
          omega
      | false =>
          have : ¬ (ranksBefore v a b = true ∨ (a ∈ v ∧ b ∉ v)) := by
            intro hor
            rcases hor with h | ⟨h1, h2⟩
            · simp [prefersOver, h] at hp
            · simp [prefersOver, h1, h2] at hp
          simp only [if_neg this]
          simp

/-- C2: for every ordered pair `(a, b)` of distinct candidates in the
domain of `pairwise_preferences`, the tallied entry equals the number of
ballots whose cleaned sequence either ranks `a` strictly before `b`, or
ranks `a` without ranking `b` at all. -/
theorem pairwise_preferences_correct (ballots : List Ballot) (a b : String)
    (ha : a ∈ candidatesOf (ballots.map Ballot.cleaned_votes))
    (hb : b ∈ candidatesOf (ballots.map Ballot.cleaned_votes))
    (hab : a ≠ b) :
    (pairwise_preferences ballots).2 (a, b) =
      ((ballots.map Ballot.cleaned_votes).filter
        (fun v => prefersOver v a b)).length := by
  have hnd : ∀ v ∈ ballots.map Ballot.cleaned_votes, v.Nodup := by
    intro v hv
    rcases List.mem_map.mp hv with ⟨w, _, rfl⟩
    exact cleaned_votes_nodup w
  have := foldl_addBallot_apply (candidatesOf (ballots.map Ballot.cleaned_votes))
    a b (candidatesOf_nodup _) hb (ballots.map Ballot.cleaned_votes)
    (fun _ => 0) hnd
  simpa [pairwise_preferences] using this

/-- Witness for C2 at a concrete ballot set: ballots `[A, B]` and `[B]`. -/
theorem pairwise_preferences_correct_witness :
    (pairwise_preferences
        [Ballot.mk [Slot.cand "A", Slot.cand "B", Slot.blank],
         Ballot.mk [Slot.cand "B", Slot.blank, Slot.blank]]).2 ("A", "B") =
      (([Ballot.mk [Slot.cand "A", Slot.cand "B", Slot.blank],
         Ballot.mk [Slot.cand "B", Slot.blank, Slot.blank]].map
          Ballot.cleaned_votes).filter (fun v => prefersOver v "A" "B")).length :=
  pairwise_preferences_correct _ "A" "B" (by decide) (by decide) (by decide)

theorem mem_keysInOrder {x : String} {xs : List String} :
    x ∈ keysInOrder xs ↔ x ∈ xs := by
  unfold keysInOrder
  rw [mem_foldl_insertKey]
  simp

theorem keysInOrder_nodup (xs : List String) : (keysInOrder xs).Nodup :=
  nodup_foldl_insertKey xs [] List.nodup_nil

theorem keysInOrder_eq_nil {xs : List String} :
    keysInOrder xs = [] ↔ xs = [] := by
  constructor
  · intro h
    by_contra hne
    rcases List.exists_mem_of_ne_nil xs hne with ⟨x, hx⟩
    have := mem_keysInOrder.mpr hx
    rw [h] at this
    simp at this
  · intro h; rw [h]; rfl

/-- Stable insertion into a descending-sorted `(key, count)` list: the new
element (earlier in the original order) passes every strictly greater
count and stops before the first count `≤` its own, exactly as Python's
stable `sorted(..., reverse=True)` places it. -/
def insertDesc (x : String × Nat) : List (String × Nat) → List (String × Nat)
  | [] => [x]
  | y :: ys => if x.2 < y.2 then y :: insertDesc x ys else x :: y :: ys

/-- Stable descending sort by count: the model of
`Counter(...).most_common()`'s sort (any stable sort by the same key
produces Python's list). -/
def sortDesc (l : List (String × Nat)) : List (String × Nat) :=
  l.foldr insertDesc []

theorem insertDesc_perm (x : String × Nat) :
    ∀ l : List (String × Nat), (insertDesc x l).Perm (x :: l) := by
  intro l
  induction l with
  | nil => simp [insertDesc]
  | cons y ys ih =>
      rw [insertDesc]
      by_cases h : x.2 < y.2
      · rw [if_pos h]
        exact (ih.cons y).trans (List.Perm.swap x y ys)
      · rw [if_neg h]

theorem sortDesc_perm (l : List (String × Nat)) : (sortDesc l).Perm l := by
  induction l with
  | nil => rfl
  | cons x xs ih =>
      have h1 : sortDesc (x :: xs) = insertDesc x (sortDesc xs) := rfl
      rw [h1]
      exact (insertDesc_perm x (sortDesc xs)).trans (ih.cons x)

theorem insertDesc_pairwise (x : String × Nat) :
    ∀ l : List (String × Nat),
      l.Pairwise (fun a b => b.2 ≤ a.2) →
      (insertDesc x l).Pairwise (fun a b => b.2 ≤ a.2) := by
  intro l
  induction l with
  | nil => intro _; simp [insertDesc]
  | cons y ys ih =>
      intro h
      rw [List.pairwise_cons] at h
      rw [insertDesc]
      by_cases hlt : x.2 < y.2
      · rw [if_pos hlt]
        rw [List.pairwise_cons]
        refine ⟨?_, ih h.2⟩
        intro z hz
        have : z = x ∨ z ∈ ys := by
          have := (insertDesc_perm x ys).mem_iff.mp hz
          simpa using this
        rcases this with rfl | hz'
        · exact Nat.le_of_lt hlt
        · exact h.1 z hz'
      · rw [if_neg hlt]
        rw [List.pairwise_cons]
        refine ⟨?_, List.pairwise_cons.mpr h⟩
        intro z hz
        rcases List.mem_cons.mp hz with rfl | hz'
        · exact Nat.le_of_not_lt hlt
        · exact Nat.le_trans (h.1 z hz') (Nat.le_of_not_lt hlt)

theorem sortDesc_pairwise (l : List (String × Nat)) :
    (sortDesc l).Pairwise (fun a b => b.2 ≤ a.2) := by
  induction l with
  | nil => simp [sortDesc]
  | cons x xs ih => exact insertDesc_pairwise x (sortDesc xs) ih

/-- `(v[0] for v in votes if v)`: the current first choices. -/
def firstChoices (votes : List (List String)) : List String :=
  votes.filterMap List.head?

/-- The `Counter` built from the first choices: keys in first-appearance
order, each with its multiplicity. -/
def firstCounts (votes : List (List String)) : List (String × Nat) :=
  (keysInOrder (firstChoices votes)).map
    (fun c => (c, (firstChoices votes).count c))

/-- `len(list(filter(None, votes)))`: ballots still expressing a
preference. -/
def nonexhausted (votes : List (List String)) : Nat :=
  (votes.filter (fun v => decide (v ≠ []))).length

/-- The exceptions the source can raise on the modelled paths. -/
inductive PyErr where
  | indexError : PyErr
  | unboundLocal : PyErr
deriving DecidableEq, Repr

/-- Outcome of one `run_irv` loop iteration. -/
inductive StepResult where
  | winner (c : String) : StepResult
  | eliminate (c : String) : StepResult
  | err (e : PyErr) : StepResult
deriving DecidableEq, Repr

/-- One iteration of `run_irv`'s loop: take `totals[0]` (an `IndexError`
when no ballot expresses a preference), declare the winner when
`v > nonexhausted / 2`, otherwise eliminate `totals[-1][0]` — a name the
source binds only inside `if verbose:`, so with `verbose=False` this path
raises `UnboundLocalError`. -/
def irvStep (verbose : Bool) (votes : List (List String)) : StepResult :=
  match sortDesc (firstCounts votes) with
  | [] => StepResult.err PyErr.indexError
  | (c, v) :: rest =>
      if 2 * v > nonexhausted votes then StepResult.winner c
      else if verbose then StepResult.eliminate (rest.getLastD (c, v)).1
      else StepResult.err PyErr.unboundLocal

/-- `while eliminated in v: v.remove(eliminated)`: drop every occurrence,
keeping order. -/
def removeCand (e : String) (v : List String) : List String :=
  v.filter (fun x => decide (x ≠ e))

/-- The `itertools.count(1)` loop of `run_irv`, with explicit fuel: `none`
means the bounded run did not finish within `fuel` rounds. -/
def run_irv_fuel : Nat → Bool → List (List String) → Option (Except PyErr String)
  | 0, _, _ => none
  | fuel + 1, verbose, votes =>
      match irvStep verbose votes with
      | StepResult.winner c => some (Except.ok c)
      | StepResult.err e => some (Except.error e)
      | StepResult.eliminate c =>
          run_irv_fuel fuel verbose (votes.map (removeCand c))

/-- The number of distinct candidates appearing in the cleaned ballots. -/
def numCandidates (ballots : List Ballot) : Nat :=
  (candidatesOf (ballots.map Ballot.cleaned_votes)).length

/-- `run_irv` (the loop is given enough fuel to cover every terminating
run: termination within `numCandidates` rounds is proved below). -/
def run_irv (verbose : Bool) (ballots : List Ballot) :
    Option (Except PyErr String) :=
  run_irv_fuel (numCandidates ballots + 1) verbose
    (ballots.map Ballot.cleaned_votes)

/-- The largest first-choice total of the current round. -/
def maxFirstCount (votes : List (List String)) : Nat :=
  ((firstCounts votes).map Prod.snd).foldr max 0

theorem le_foldr_max {a : Nat} : ∀ {l : List Nat}, a ∈ l → a ≤ l.foldr max 0 := by
  intro l
  induction l with
  | nil => intro h; simp at h
  | cons b bs ih =>
      intro h
      rcases List.mem_cons.mp h with rfl | h
      · exact Nat.le_max_left _ _
      · exact Nat.le_trans (ih h) (Nat.le_max_right _ _)

theorem foldr_max_le {m : Nat} : ∀ {l : List Nat}, (∀ x ∈ l, x ≤ m) → l.foldr max 0 ≤ m := by
  intro l
  induction l with
  | nil => intro _; simp
  | cons b bs ih =>
      intro h
      simp only [List.foldr_cons]
      exact Nat.max_le.mpr ⟨h b (List.mem_cons_self b bs),
        ih (fun x hx => h x (List.mem_cons_of_mem b hx))⟩

theorem firstChoices_ne_nil {votes : List (List String)}
    (hne : ∃ v ∈ votes, v ≠ []) : firstChoices votes ≠ [] := by
  rcases hne with ⟨v, hv, hvne⟩
  cases v with
  | nil => exact absurd rfl hvne
  | cons x xs =>
      intro h
      have hx : x ∈ firstChoices votes :=
        List.mem_filterMap.mpr ⟨x :: xs, hv, rfl⟩
      rw [h] at hx
      simp at hx

theorem firstChoices_length (votes : List (List String)) :
    (firstChoices votes).length = nonexhausted votes := by
  unfold firstChoices nonexhausted
  induction votes with
  | nil => rfl
  | cons v vs ih =>
      cases v with
      | nil => simpa using ih
      | cons x xs => simpa using ih

theorem mem_firstCounts_eq {votes : List (List String)} {q : String × Nat}
    (h : q ∈ firstCounts votes) :
    q.2 = (firstChoices votes).count q.1 := by
  rcases List.mem_map.mp h with ⟨c, _, rfl⟩
  rfl

theorem sortDesc_firstCounts_ne_nil {votes : List (List String)}
    (hne : ∃ v ∈ votes, v ≠ []) : sortDesc (firstCounts votes) ≠ [] := by
  intro h
  have hlen := (sortDesc_perm (firstCounts votes)).length_eq
  rw [h] at hlen
  have : firstCounts votes = [] := List.eq_nil_of_length_eq_zero hlen.symm
  unfold firstCounts at this
  rw [List.map_eq_nil_iff] at this
  exact firstChoices_ne_nil hne (keysInOrder_eq_nil.mp this)

theorem sortDesc_head_max {votes : List (List String)} {p : String × Nat}
    {rest : List (String × Nat)}
    (h : sortDesc (firstCounts votes) = p :: rest) :
    p.2 = maxFirstCount votes := by
  have hperm := sortDesc_perm (firstCounts votes)
  have hpmem : p ∈ firstCounts votes :=
    hperm.mem_iff.mp (h ▸ List.mem_cons_self p rest)
  have hpair := sortDesc_pairwise (firstCounts votes)
  rw [h, List.pairwise_cons] at hpair
  apply Nat.le_antisymm
  · exact le_foldr_max (List.mem_map_of_mem Prod.snd hpmem)
  · apply foldr_max_le
    intro x hx
    rcases List.mem_map.mp hx with ⟨q, hq, rfl⟩
    have : q ∈ p :: rest := h ▸ hperm.mem_iff.mpr hq
    rcases List.mem_cons.mp this with rfl | hq'
    · exact Nat.le_refl _
    · exact hpair.1 q hq'

/-- C3: a round of `run_irv` declares a winner exactly when the largest
first-choice total strictly exceeds half of the non-exhausted ballot
count of that round (ballots whose remaining cleaned sequence is
non-empty) — not half of the original total — and the returned winner
holds that largest total. -/
theorem irv_majority_rule (verbose : Bool) (votes : List (List String))
    (hne : ∃ v ∈ votes, v ≠ []) :
    ((∃ c, irvStep verbose votes = StepResult.winner c) ↔
        2 * maxFirstCount votes > nonexhausted votes) ∧
      (∀ c, irvStep verbose votes = StepResult.winner c →
        (firstChoices votes).count c = maxFirstCount votes) := by
  obtain ⟨p, rest, hsort⟩ : ∃ p rest, sortDesc (firstCounts votes) = p :: rest := by
    cases hs : sortDesc (firstCounts votes) with
    | nil => exact absurd hs (sortDesc_firstCounts_ne_nil hne)
    | cons p rest => exact ⟨p, rest, rfl⟩
  obtain ⟨c0, v0⟩ := p
  have hmax : v0 = maxFirstCount votes := sortDesc_head_max hsort
  have hcnt : v0 = (firstChoices votes).count c0 := by
    have hpmem : (c0, v0) ∈ firstCounts votes :=
      (sortDesc_perm _).mem_iff.mp (hsort ▸ List.mem_cons_self _ _)
    exact mem_firstCounts_eq hpmem
  have hstep : irvStep verbose votes =
      (if 2 * v0 > nonexhausted votes then StepResult.winner c0
       else if verbose then StepResult.eliminate ((rest.getLastD (c0, v0)).1)
       else StepResult.err PyErr.unboundLocal) := by
    unfold irvStep
    rw [hsort]
  by_cases hwin : 2 * v0 > nonexhausted votes
  · rw [if_pos hwin] at hstep
    refine ⟨⟨fun _ => hmax ▸ hwin, fun _ => ⟨c0, hstep⟩⟩, ?_⟩
    intro c hc
    rw [hstep] at hc
    cases hc
    rw [← hcnt, hmax]
  · rw [if_neg hwin] at hstep
    have hnowin : ∀ c, ¬ irvStep verbose votes = StepResult.winner c := by
      intro c hc
      rw [hstep] at hc
      cases verbose <;> simp at hc
    refine ⟨⟨fun h => ?_, fun h => absurd (hmax ▸ h) hwin⟩, ?_⟩
    · rcases h with ⟨c, hc⟩
      exact absurd hc (hnowin c)
    · intro c hc
      exact absurd hc (hnowin c)

/-- Witness for C3: a concrete round with ballots `[A]`, `[B]`, `[A]`. -/
theorem irv_majority_rule_witness :
    ((∃ c, irvStep true [["A"], ["B"], ["A"]] = StepResult.winner c) ↔
        2 * maxFirstCount [["A"], ["B"], ["A"]] > nonexhausted [["A"], ["B"], ["A"]]) ∧
      (∀ c, irvStep true [["A"], ["B"], ["A"]] = StepResult.winner c →
        (firstChoices [["A"], ["B"], ["A"]]).count c =
          maxFirstCount [["A"], ["B"], ["A"]]) :=
  irv_majority_rule true [["A"], ["B"], ["A"]] ⟨["A"], by decide, by decide⟩

/-- C4 (code bug in the source): the round-by-round trace is not pure
observation — `eliminated` is assigned only inside `if verbose:`, so on a
ballot set whose first round has no majority, `verbose=True` tabulates a
winner while `verbose=False` raises `UnboundLocalError`. -/
theorem irv_verbose_not_pure :
    run_irv true [Ballot.mk [Slot.cand "A", Slot.blank, Slot.blank],
        Ballot.mk [Slot.cand "B", Slot.blank, Slot.blank]] =
      some (Except.ok "A") ∧
    run_irv false [Ballot.mk [Slot.cand "A", Slot.blank, Slot.blank],
        Ballot.mk [Slot.cand "B", Slot.blank, Slot.blank]] =
      some (Except.error PyErr.unboundLocal) :=
  ⟨rfl, rfl⟩

/-- The `counts[v] += count_fn(i)` loop of `run_borda` over one cleaned
sequence (`defaultdict(int)` as function state, position `i` explicit). -/
def bumpScores (count_fn : Nat → Int) : List String → Nat → (String → Int) → (String → Int)
  | [], _, counts => counts
  | v :: rest, i, counts =>
      bumpScores count_fn rest (i + 1)
        (fun c => if c = v then counts c + count_fn i else counts c)

/-- The keys of `run_borda`'s `counts` defaultdict, in first-update order
(a key is created even when `count_fn i` is `0`). -/
def bordaKeys (ballots : List Ballot) : List String :=
  keysInOrder (ballots.flatMap Ballot.cleaned_votes)

/-- The tallied totals of `run_borda`. -/
def bordaCounts (count_fn : Nat → Int) (ballots : List Ballot) : String → Int :=
  ballots.foldl (fun counts b => bumpScores count_fn b.cleaned_votes 0 counts)
    (fun _ => 0)

/-- Stable insertion for the descending sort of `winners` (`Int`
totals). -/
def insertDescI (x : String × Int) : List (String × Int) → List (String × Int)
  | [] => [x]
  | y :: ys => if x.2 < y.2 then y :: insertDescI x ys else x :: y :: ys

/-- `sorted(counts.items(), key=value, reverse=True)`, stable. -/
def sortDescI (l : List (String × Int)) : List (String × Int) :=
  l.foldr insertDescI []

/-- `run_borda`: tally `count_fn` over the positions of every cleaned
sequence, sort the totals descending, return `winners[0][0]` — an
`IndexError` when the tally is empty. -/
def run_borda (count_fn : Nat → Int) (ballots : List Ballot) :
    Except PyErr String :=
  match sortDescI ((bordaKeys ballots).map
      (fun c => (c, bordaCounts count_fn ballots c))) with
  | [] => Except.error PyErr.indexError
  | w :: _ => Except.ok w.1

/-- The default Borda scoring function `lambda i: 3 - i` (over `Int`, as
in Python). -/
def borda_count_fn (i : Nat) : Int := 3 - (i : Int)

/-- `run_fptp`: `run_borda` with `lambda i: not i`. -/
def run_fptp (ballots : List Ballot) : Except PyErr String :=
  run_borda (fun i => if i = 0 then 1 else 0) ballots

/-- `run_approval`: `run_borda` with `lambda i: i < cutoff`
(default cutoff 3). -/
def run_approval (cutoff : Nat) (ballots : List Ballot) : Except PyErr String :=
  run_borda (fun i => if i < cutoff then 1 else 0) ballots

/-- C5 (code bug in the source): on the empty ballot set the tabulators do
not report an absent winner — `run_irv` hits `totals[0]` and the
positional tabulators hit `winners[0]` on an empty list, raising
`IndexError` (no division by zero occurs). -/
theorem empty_ballots_raise :
    run_irv true [] = some (Except.error PyErr.indexError) ∧
      run_irv false [] = some (Except.error PyErr.indexError) ∧
      run_borda borda_count_fn [] = Except.error PyErr.indexError ∧
      run_fptp [] = Except.error PyErr.indexError ∧
      run_approval 3 [] = Except.error PyErr.indexError :=
  ⟨rfl, rfl, rfl, rfl, rfl⟩

/-- Counterexample to C8 as stated: the default scoring function gives
position 0 the weight `3`, while the claimed formula
`ranksAllowed - 1 - i` gives it `2`. -/
theorem borda_weight_formula_counterexample :
    borda_count_fn 0 = 3 ∧ ((ranksAllowed : Int) - 1 - (0 : Int)) = 2 ∧
      (3 : Int) ≠ 2 :=
  ⟨rfl, rfl, by decide⟩

/-- C8 amended: the default Borda scoring function `lambda i: 3 - i`
assigns 0-based position `i` the weight `ranksAllowed - i`, i.e. weights
3, 2, 1 for the three ranks of this election, strictly decreasing per
position. -/
theorem borda_default_weights :
    (∀ i : Nat, borda_count_fn i = (ranksAllowed : Int) - (i : Int)) ∧
      borda_count_fn 0 = 3 ∧ borda_count_fn 1 = 2 ∧ borda_count_fn 2 = 1 ∧
      (∀ i j : Nat, i < j → borda_count_fn j < borda_count_fn i) := by
  refine ⟨fun i => rfl, rfl, rfl, rfl, fun i j hij => ?_⟩
  unfold borda_count_fn
  omega

theorem getLastD_mem_of_ne_nil {α : Type} {l : List α} (a : α) (h : l ≠ []) :
    l.getLastD a ∈ l := by
  rw [List.getLastD_eq_getLast?]
  cases hl : l.getLast? with
  | none => exact absurd (List.getLast?_eq_none_iff.mp hl) h
  | some x => simpa using List.mem_of_getLast?_eq_some hl

theorem length_filter_ne_lt {l : List String} {c : String} (hc : c ∈ l) :
    (l.filter (fun x => decide (x ≠ c))).length < l.length := by
  induction l with
  | nil => simp at hc
  | cons y ys ih =>
      rw [List.filter_cons]
      by_cases hyc : y = c
      · subst hyc
        rw [if_neg (by simp)]
        simp only [List.length_cons]
        exact Nat.lt_succ_of_le (List.length_filter_le _ ys)
      · have hcys : c ∈ ys := by
          rcases List.mem_cons.mp hc with rfl | h
          · exact absurd rfl hyc
          · exact h
        rw [if_pos (by simp [hyc])]
        simp only [List.length_cons]
        exact Nat.succ_lt_succ (ih hcys)

theorem candidatesOf_removeCand_lt {votes : List (List String)} {c : String}
    (hc : c ∈ candidatesOf votes) :
    (candidatesOf (votes.map (removeCand c))).length <
      (candidatesOf votes).length := by
  have hsub : candidatesOf (votes.map (removeCand c)) ⊆
      (candidatesOf votes).filter (fun x => decide (x ≠ c)) := by
    intro x hx
    rcases mem_candidatesOf.mp hx with ⟨v', hv', hxv'⟩
    rcases List.mem_map.mp hv' with ⟨w, hw, rfl⟩
    have hxw := List.mem_filter.mp hxv'
    exact List.mem_filter.mpr
      ⟨mem_candidatesOf.mpr ⟨w, hw, hxw.1⟩, hxw.2⟩
  have hle := (List.subperm_of_subset (candidatesOf_nodup _) hsub).length_le
  exact Nat.lt_of_le_of_lt hle (length_filter_ne_lt hc)

theorem irvStep_true_cases (votes : List (List String))
    (hne : ∃ v ∈ votes, v ≠ []) :
    (∃ c, irvStep true votes = StepResult.winner c) ∨
      ∃ c, irvStep true votes = StepResult.eliminate c ∧
        c ∈ candidatesOf votes ∧
        ∃ w ∈ votes, ∃ d, w.head? = some d ∧ d ≠ c := by
  obtain ⟨p, rest, hsort⟩ : ∃ p rest, sortDesc (firstCounts votes) = p :: rest := by
    cases hs : sortDesc (firstCounts votes) with
    | nil => exact absurd hs (sortDesc_firstCounts_ne_nil hne)
    | cons p rest => exact ⟨p, rest, rfl⟩
  obtain ⟨c0, v0⟩ := p
  have hstep : irvStep true votes =
      (if 2 * v0 > nonexhausted votes then StepResult.winner c0
       else StepResult.eliminate ((rest.getLastD (c0, v0)).1)) := by
    unfold irvStep
    rw [hsort]
    rfl
  by_cases hwin : 2 * v0 > nonexhausted votes
  · exact Or.inl ⟨c0, by rw [hstep, if_pos hwin]⟩
  · rw [if_neg hwin] at hstep
    have hrest : rest ≠ [] := by
      intro hrnil
      subst hrnil
      have hperm1 : firstCounts votes = [(c0, v0)] := by
        have h1 := sortDesc_perm (firstCounts votes)
        rw [hsort] at h1
        exact List.perm_singleton.mp h1.symm
      have hkeys : keysInOrder (firstChoices votes) = [c0] ∧
          (firstChoices votes).count c0 = v0 := by
        unfold firstCounts at hperm1
        cases hk : keysInOrder (firstChoices votes) with
        | nil => rw [hk] at hperm1; simp at hperm1
        | cons k ks =>
            rw [hk] at hperm1
            simp only [List.map_cons, List.cons.injEq, Prod.mk.injEq] at hperm1
            obtain ⟨⟨hk1, hk2⟩, hk3⟩ := hperm1
            rw [List.map_eq_nil_iff] at hk3
            subst hk1
            subst hk3
            exact ⟨rfl, hk2⟩
      have hall : ∀ x ∈ firstChoices votes, c0 = x := by
        intro x hx
        have hx' := mem_keysInOrder.mpr hx
        rw [hkeys.1] at hx'
        have : x = c0 := by simpa using hx'
        exact this.symm
      have hcount : (firstChoices votes).count c0 = (firstChoices votes).length :=
        List.count_eq_length.mpr hall
      have hlen : (firstChoices votes).length = nonexhausted votes :=
        firstChoices_length votes
      have hpos : 0 < nonexhausted votes := by
        rcases hne with ⟨v, hv, hvne⟩
        have hmem : v ∈ votes.filter (fun v => decide (v ≠ [])) :=
          List.mem_filter.mpr ⟨hv, by simpa using hvne⟩
        exact List.length_pos.mpr (List.ne_nil_of_mem hmem)
      have hv0 : (firstChoices votes).count c0 = v0 := hkeys.2
      omega
    have hqrest : rest.getLastD (c0, v0) ∈ rest :=
      getLastD_mem_of_ne_nil _ hrest
    have hqfc : rest.getLastD (c0, v0) ∈ firstCounts votes :=
      (sortDesc_perm _).mem_iff.mp
        (hsort ▸ List.mem_cons_of_mem _ hqrest)
    have hq1 : (rest.getLastD (c0, v0)).1 ∈ keysInOrder (firstChoices votes) := by
      rcases List.mem_map.mp hqfc with ⟨k, hk, hkq⟩
      rw [← hkq]
      exact hk
    rcases List.mem_filterMap.mp (mem_keysInOrder.mp hq1) with ⟨w1, hw1, hw1h⟩
    have hq1cand : (rest.getLastD (c0, v0)).1 ∈ candidatesOf votes :=
      mem_candidatesOf.mpr
        ⟨w1, hw1, List.mem_of_mem_head? (Option.mem_def.mpr hw1h)⟩
    have hc0keys : c0 ∈ keysInOrder (firstChoices votes) := by
      have hmem : (c0, v0) ∈ firstCounts votes :=
        (sortDesc_perm _).mem_iff.mp (hsort ▸ List.mem_cons_self _ _)
      rcases List.mem_map.mp hmem with ⟨k, hk, hkq⟩
      have : k = c0 := congrArg Prod.fst hkq
      exact this ▸ hk
    rcases List.mem_filterMap.mp (mem_keysInOrder.mp hc0keys) with ⟨w, hw, hwh⟩
    have hnodup : (((c0, v0) :: rest).map Prod.fst).Nodup := by
      have h1 := (sortDesc_perm (firstCounts votes)).map Prod.fst
      rw [hsort] at h1
      have h2 : (firstCounts votes).map Prod.fst =
          keysInOrder (firstChoices votes) := by
        unfold firstCounts
        rw [List.map_map]
        exact List.map_id _
      rw [h2] at h1
      exact h1.nodup_iff.mpr (keysInOrder_nodup _)
    have hqne : (rest.getLastD (c0, v0)).1 ≠ c0 := by
      rw [List.map_cons, List.nodup_cons] at hnodup
      intro he
      have hmm : (rest.getLastD (c0, v0)).1 ∈ rest.map Prod.fst :=
        List.mem_map_of_mem Prod.fst hqrest
      rw [he] at hmm
      exact hnodup.1 hmm
    exact Or.inr ⟨(rest.getLastD (c0, v0)).1, hstep, hq1cand,
      w, hw, c0, hwh, fun h => hqne h.symm⟩

theorem run_irv_fuel_mono :
    ∀ (fuel fuel' : Nat) (verbose : Bool) (votes : List (List String))
      (r : Except PyErr String),
      run_irv_fuel fuel verbose votes = some r → fuel ≤ fuel' →
      run_irv_fuel fuel' verbose votes = some r := by
  intro fuel
  induction fuel with
  | zero =>
      intro fuel' verbose votes r h _
      simp [run_irv_fuel] at h
  | succ fuel ih =>
      intro fuel' verbose votes r h hle
      obtain ⟨f2, rfl⟩ : ∃ f2, fuel' = f2 + 1 := ⟨fuel' - 1, by omega⟩
      cases hstep : irvStep verbose votes with
      | winner c =>
          rw [run_irv_fuel, hstep] at h ⊢
          exact h
      | err e =>
          rw [run_irv_fuel, hstep] at h ⊢
          exact h
      | eliminate c =>
          rw [run_irv_fuel, hstep] at h ⊢
          exact ih f2 verbose _ r h (by omega)

theorem run_irv_fuel_complete :
    ∀ (fuel : Nat) (votes : List (List String)),
      (∃ v ∈ votes, v ≠ []) → (candidatesOf votes).length ≤ fuel →
      ∃ c, run_irv_fuel fuel true votes = some (Except.ok c) := by
  intro fuel
  induction fuel with
  | zero =>
      intro votes hne hle
      rcases hne with ⟨v, hv, hvne⟩
      rcases List.exists_mem_of_ne_nil v hvne with ⟨x, hx⟩
      have hmem : x ∈ candidatesOf votes := mem_candidatesOf.mpr ⟨v, hv, hx⟩
      have := List.length_pos.mpr (List.ne_nil_of_mem hmem)
      omega
  | succ fuel ih =>
      intro votes hne hle
      rcases irvStep_true_cases votes hne with ⟨c, hc⟩ |
        ⟨c, hc, hcmem, w, hw, d, hwd, hdc⟩
      · exact ⟨c, by rw [run_irv_fuel, hc]⟩
      · have hne' : ∃ v ∈ votes.map (removeCand c), v ≠ [] := by
          refine ⟨removeCand c w, List.mem_map_of_mem _ hw, ?_⟩
          have hdw : d ∈ w := List.mem_of_mem_head? (Option.mem_def.mpr hwd)
          have : d ∈ removeCand c w :=
            List.mem_filter.mpr ⟨hdw, by simpa using hdc⟩
          exact List.ne_nil_of_mem this
        have hlt : (candidatesOf (votes.map (removeCand c))).length <
            (candidatesOf votes).length := candidatesOf_removeCand_lt hcmem
        rcases ih (votes.map (removeCand c)) hne' (by omega) with ⟨c', hc'⟩
        exact ⟨c', by rw [run_irv_fuel, hc]; exact hc'⟩

/-- Counterexample to C9 as stated: with the two ballots `[A]` and `[B]`
(`numCandidates = 2`), no winner is reached within
`numCandidates - 1 = 1` rounds — round 1 has no majority — while round 2
declares one. -/
theorem irv_round_bound_counterexample :
    numCandidates [Ballot.mk [Slot.cand "A", Slot.blank, Slot.blank],
        Ballot.mk [Slot.cand "B", Slot.blank, Slot.blank]] = 2 ∧
      run_irv_fuel 1 true
        ([Ballot.mk [Slot.cand "A", Slot.blank, Slot.blank],
          Ballot.mk [Slot.cand "B", Slot.blank, Slot.blank]].map
            Ballot.cleaned_votes) = none ∧
      run_irv_fuel 2 true
        ([Ballot.mk [Slot.cand "A", Slot.blank, Slot.blank],
          Ballot.mk [Slot.cand "B", Slot.blank, Slot.blank]].map
            Ballot.cleaned_votes) = some (Except.ok "A") :=
  ⟨rfl, rfl, rfl⟩

/-- C9 amended: for every ballot set with at least one non-empty cleaned
sequence, `run_irv` (verbose) terminates with a majority winner in at
most `numCandidates` rounds (each non-terminal round eliminates at least
one candidate, and the final round declares the winner). -/
theorem run_irv_terminates (ballots : List Ballot)
    (hne : ∃ b ∈ ballots, b.cleaned_votes ≠ []) :
    ∃ c, run_irv_fuel (numCandidates ballots) true
          (ballots.map Ballot.cleaned_votes) = some (Except.ok c) ∧
        run_irv true ballots = some (Except.ok c) := by
  have hne' : ∃ v ∈ ballots.map Ballot.cleaned_votes, v ≠ [] := by
    rcases hne with ⟨b, hb, hbne⟩
    exact ⟨b.cleaned_votes, List.mem_map_of_mem _ hb, hbne⟩
  rcases run_irv_fuel_complete (numCandidates ballots) _ hne' (Nat.le_refl _)
    with ⟨c, hc⟩
  exact ⟨c, hc, run_irv_fuel_mono _ _ _ _ _ hc (by omega)⟩

/-- Witness for C9 (amended): the two-ballot election above does reach a
winner within `numCandidates` rounds. -/
theorem run_irv_terminates_witness :
    ∃ c, run_irv_fuel
          (numCandidates [Ballot.mk [Slot.cand "A", Slot.blank, Slot.blank],
            Ballot.mk [Slot.cand "B", Slot.blank, Slot.blank]]) true
          ([Ballot.mk [Slot.cand "A", Slot.blank, Slot.blank],
            Ballot.mk [Slot.cand "B", Slot.blank, Slot.blank]].map
              Ballot.cleaned_votes) = some (Except.ok c) ∧
        run_irv true [Ballot.mk [Slot.cand "A", Slot.blank, Slot.blank],
            Ballot.mk [Slot.cand "B", Slot.blank, Slot.blank]] =
          some (Except.ok c) :=
  run_irv_terminates _
    ⟨Ballot.mk [Slot.cand "A", Slot.blank, Slot.blank], by decide, by decide⟩

/-- `candidates = {c for c, _ in prefs}` in `run_condorcet` /
`_strongest_paths` (set order unspecified; modelled in first-appearance
order — only membership matters). -/
def condCands (keys : List (String × String)) : List String :=
  keysInOrder (keys.map Prod.fst)

/-- `run_condorcet`: count, for each candidate, the others it strictly
pairwise-beats, then return the first candidate (in `wins` insertion
order) whose win count is `len(candidates) - 1`; `None` otherwise. -/
def run_condorcet (pref_fn : List Ballot → List (String × String) × Mat)
    (ballots : List Ballot) : Option String :=
  let prefs := pref_fn ballots
  let cands := condCands prefs.1
  cands.find? (fun c =>
    (cands.filter (fun d => decide (c ≠ d) &&
      decide (prefs.2 (c, d) > prefs.2 (d, c)))).length == cands.length - 1)

theorem countP_eq_imp {α : Type} (p q : α → Bool) :
    ∀ l : List α, (∀ a ∈ l, p a = true → q a = true) →
      l.countP p = l.countP q → ∀ a ∈ l, q a = true → p a = true := by
  intro l
  induction l with
  | nil => intro _ _ a ha; simp at ha
  | cons x xs ih =>
      intro himp hcnt a ha
      have himp' : ∀ a ∈ xs, p a = true → q a = true :=
        fun a ha hp => himp a (List.mem_cons_of_mem _ ha) hp
      rw [List.countP_cons, List.countP_cons] at hcnt
      cases hp : p x with
      | true =>
          have hq : q x = true := himp x (List.mem_cons_self x xs) hp
          rw [hp, hq] at hcnt
          simp at hcnt
          intro hqa
          rcases List.mem_cons.mp ha with rfl | ha'
          · exact hp
          · exact ih himp' hcnt a ha' hqa
      | false =>
          cases hq : q x with
          | true =>
              rw [hp, hq] at hcnt
              simp at hcnt
              have hle := List.countP_mono_left himp'
              omega
          | false =>
              rw [hp, hq] at hcnt
              simp at hcnt
              intro hqa
              rcases List.mem_cons.mp ha with rfl | ha'
              · exact absurd hqa (by simp [hq])
              · exact ih himp' hcnt a ha' hqa

theorem countP_ne_of_nodup {l : List String} {c : String}
    (hnd : l.Nodup) (hc : c ∈ l) :
    l.countP (fun d => decide (¬ d = c)) = l.length - 1 := by
  have hsplit := List.length_eq_countP_add_countP
    (fun d => decide (¬ d = c)) l
  have hcount : l.countP (fun a => ¬ (decide (¬ a = c)) = true) = 1 := by
    have h1 : l.countP (fun a => ¬ (decide (¬ a = c)) = true) = l.count c := by
      apply List.countP_congr
      intro x _
      by_cases hx : x = c <;> simp [hx]
    rw [h1]
    exact List.count_eq_one_of_mem hnd hc
  omega

/-- The win-count filter of `run_condorcet` reaches `n - 1` exactly when
the candidate strictly beats every other candidate. -/
theorem condorcet_wins_iff (cands : List String) (M : Mat) (c : String)
    (hnd : cands.Nodup) (hc : c ∈ cands) :
    ((cands.filter (fun d => decide (c ≠ d) &&
        decide (M (c, d) > M (d, c)))).length = cands.length - 1) ↔
      (∀ d ∈ cands, d ≠ c → M (c, d) > M (d, c)) := by
  have hlen : ∀ q : String → Bool, (cands.filter q).length = cands.countP q := by
    intro q
    rw [List.countP_eq_length_filter]
  constructor
  · intro heq d hd hdc
    have himp : ∀ a ∈ cands,
        (decide (c ≠ a) && decide (M (c, a) > M (a, c))) = true →
        (decide (¬ a = c)) = true := by
      intro a _ h
      rcases Bool.and_eq_true _ _ |>.mp h with ⟨h1, _⟩
      simp only [decide_eq_true_eq] at h1 ⊢
      exact fun he => h1 he.symm
    have hcnt : cands.countP (fun d => decide (c ≠ d) &&
        decide (M (c, d) > M (d, c))) =
        cands.countP (fun d => decide (¬ d = c)) := by
      have h1 : cands.countP (fun d => decide (c ≠ d) &&
          decide (M (c, d) > M (d, c))) = cands.length - 1 := by
        rw [List.countP_eq_length_filter]
        exact heq
      rw [h1, countP_ne_of_nodup hnd hc]
    have := countP_eq_imp _ _ cands himp hcnt d hd (by simp [hdc])
    rcases Bool.and_eq_true _ _ |>.mp this with ⟨_, h2⟩
    simpa using h2
  · intro hall
    rw [hlen]
    rw [← countP_ne_of_nodup hnd hc]
    apply List.countP_congr
    intro x hx
    by_cases hxc : x = c
    · simp [hxc]
    · have hcx : ¬ c = x := fun h => hxc h.symm
      have hbeat := hall x hx hxc
      simp [hxc, hcx, hbeat]

/-- C6: `run_condorcet` returns `c` exactly when `c` strictly
pairwise-beats every other candidate of the preference matrix's domain
(ties count as neither), and returns `none` (a reportable absent winner,
not a failure) when no such candidate exists. -/
theorem run_condorcet_iff (ballots : List Ballot) (c : String) :
    run_condorcet pairwise_preferences ballots = some c ↔
      (c ∈ condCands (pairwise_preferences ballots).1 ∧
        ∀ d ∈ condCands (pairwise_preferences ballots).1, d ≠ c →
          (pairwise_preferences ballots).2 (c, d) >
            (pairwise_preferences ballots).2 (d, c)) := by
  unfold run_condorcet
  have hnd : (condCands (pairwise_preferences ballots).1).Nodup :=
    keysInOrder_nodup _
  constructor
  · intro h
    have hmem := List.mem_of_find?_eq_some h
    have hp := List.find?_some h
    simp only [beq_iff_eq] at hp
    exact ⟨hmem, (condorcet_wins_iff _ _ c hnd hmem).mp hp⟩
  · rintro ⟨hmem, hall⟩
    have hpc : ((condCands (pairwise_preferences ballots).1).filter
        (fun d => decide (c ≠ d) &&
          decide ((pairwise_preferences ballots).2 (c, d) >
            (pairwise_preferences ballots).2 (d, c)))).length =
        (condCands (pairwise_preferences ballots).1).length - 1 :=
      (condorcet_wins_iff _ _ c hnd hmem).mpr hall
    have hsome : ((condCands (pairwise_preferences ballots).1).find?
        (fun x => ((condCands (pairwise_preferences ballots).1).filter
          (fun d => decide (x ≠ d) &&
            decide ((pairwise_preferences ballots).2 (x, d) >
              (pairwise_preferences ballots).2 (d, x)))).length ==
          (condCands (pairwise_preferences ballots).1).length - 1)).isSome := by
      rw [List.find?_isSome]
      exact ⟨c, hmem, by simp only [beq_iff_eq]; exact hpc⟩
    rcases Option.isSome_iff_exists.mp hsome with ⟨c', hc'⟩
    have hmem' := List.mem_of_find?_eq_some hc'
    have hp' := List.find?_some hc'
    simp only [beq_iff_eq] at hp'
    have hall' := (condorcet_wins_iff _ _ c' hnd hmem').mp hp'
    have : c' = c := by
      by_contra hne
      have h1 := hall' c hmem (fun h => hne h.symm)
      have h2 := hall c' hmem' hne
      omega
    rw [hc', this]

/-- One write of the strongest-path relaxation:
`paths[(d, e)] = max(paths[(d, e)], min(paths[(d, c)], paths[(c, e)]))`. -/
def fwUpdate (c d e : String) (paths : Mat) : Mat :=
  fun p => if p = (d, e) then
      max (paths (d, e)) (min (paths (d, c)) (paths (c, e)))
    else paths p

/-- The `for e in candidates: if e not in (c, d):` loop of
`_strongest_paths`. -/
def fwInnerE (c d : String) : Mat → List String → Mat
  | paths, [] => paths
  | paths, e :: es =>
      if e ≠ c ∧ e ≠ d then fwInnerE c d (fwUpdate c d e paths) es
      else fwInnerE c d paths es

/-- The `for d in candidates: if c != d:` loop (the `e` loop ranges over
the full candidate list each time). -/
def fwInnerD (c : String) (cands : List String) : Mat → List String → Mat
  | paths, [] => paths
  | paths, d :: ds =>
      if c ≠ d then fwInnerD c cands (fwInnerE c d paths cands) ds
      else fwInnerD c cands paths ds

/-- The outer `for c in candidates:` loop. -/
def fwOuter (cands : List String) : Mat → List String → Mat
  | paths, [] => paths
  | paths, c :: cs => fwOuter cands (fwInnerD c cands paths cands) cs

/-- `_strongest_paths`: keys are those of `pairwise_preferences` (its
init loop ranges over the same ordered pairs of distinct candidates);
strengths start at `prefs[(c, d)] if prefs[(c, d)] > prefs[(d, c)] else 0`
and are closed by one Floyd-Warshall-style pass per intermediate
candidate. -/
def strongest_paths (ballots : List Ballot) :
    List (String × String) × Mat :=
  let prefs := pairwise_preferences ballots
  let cands := condCands prefs.1
  let init : Mat := fun p =>
    if prefs.2 p > prefs.2 (p.2, p.1) then prefs.2 p else 0
  (prefs.1, fwOuter cands init cands)

/-- `run_schulze`: the Condorcet win-count logic over path strengths. -/
def run_schulze (ballots : List Ballot) : Option String :=
  run_condorcet strongest_paths ballots

/-- The inner `e` loop is a pointwise update: entries `(d, e)` with
`e ∈ es`, `e ∉ (c, d)` take one `max`/`min` relaxation; the read entries
`(d, c)` and `(c, _)` are never written during the loop. -/
theorem fwInnerE_apply (c d : String) (hdc : d ≠ c) :
    ∀ (es : List String) (paths : Mat) (p : String × String),
      fwInnerE c d paths es p =
        if p.1 = d ∧ p.2 ∈ es ∧ p.2 ≠ c ∧ p.2 ≠ d then
          max (paths p) (min (paths (d, c)) (paths (c, p.2)))
        else paths p := by
  intro es
  induction es with
  | nil =>
      intro paths p
      simp [fwInnerE]
  | cons e es ih =>
      intro paths p
      rw [fwInnerE]
      by_cases he : e ≠ c ∧ e ≠ d
      · rw [if_pos he, ih]
        have hdc' : fwUpdate c d e paths (d, c) = paths (d, c) := by
          unfold fwUpdate
          rw [if_neg]
          intro h
          exact he.1 (congrArg Prod.snd h).symm
        have hce : fwUpdate c d e paths (c, p.2) = paths (c, p.2) := by
          unfold fwUpdate
          rw [if_neg]
          intro h
          exact hdc (congrArg Prod.fst h).symm
        rw [hdc', hce]
        by_cases hcond : p.1 = d ∧ p.2 ≠ c ∧ p.2 ≠ d
        · obtain ⟨hp1, hp2c, hp2d⟩ := hcond
          by_cases hpe : p.2 = e
          · have hpeq : p = (d, e) := by
              rw [← hp1, ← hpe]
            have hupd : fwUpdate c d e paths p =
                max (paths p) (min (paths (d, c)) (paths (c, p.2))) := by
              unfold fwUpdate
              rw [if_pos hpeq, ← hpeq, ← hpe]
            rw [hupd]
            by_cases hpes : p.2 ∈ es
            · rw [if_pos ⟨hp1, hpes, hp2c, hp2d⟩,
                if_pos ⟨hp1, List.mem_cons_of_mem e hpes, hp2c, hp2d⟩,
                max_assoc, max_self]
            · rw [if_neg (fun hcon => hpes hcon.2.1),
                if_pos ⟨hp1, by rw [hpe]; exact List.mem_cons_self e es,
                  hp2c, hp2d⟩]
          · have hpne : p ≠ (d, e) := fun h => hpe (congrArg Prod.snd h)
            have hupd : fwUpdate c d e paths p = paths p := by
              unfold fwUpdate
              rw [if_neg hpne]
            rw [hupd]
            by_cases hpes : p.2 ∈ es
            · rw [if_pos ⟨hp1, hpes, hp2c, hp2d⟩,
                if_pos ⟨hp1, List.mem_cons_of_mem e hpes, hp2c, hp2d⟩]
            · rw [if_neg (fun hcon => hpes hcon.2.1), if_neg]
              intro hcon
              rcases List.mem_cons.mp hcon.2.1 with h | h
              · exact hpe h
              · exact hpes h
        · have hpne : p ≠ (d, e) := by
            intro h
            exact hcond ⟨congrArg Prod.fst h,
              by rw [congrArg Prod.snd h]; exact he.1,
              by rw [congrArg Prod.snd h]; exact he.2⟩
          have hupd : fwUpdate c d e paths p = paths p := by
            unfold fwUpdate
            rw [if_neg hpne]
          rw [hupd]
          rw [if_neg (fun hcon => hcond ⟨hcon.1, hcon.2.2.1, hcon.2.2.2⟩),
            if_neg (fun hcon => hcond ⟨hcon.1, hcon.2.2.1, hcon.2.2.2⟩)]
      · rw [if_neg he, ih]
        have hiff : (p.1 = d ∧ p.2 ∈ es ∧ p.2 ≠ c ∧ p.2 ≠ d) ↔
            (p.1 = d ∧ p.2 ∈ e :: es ∧ p.2 ≠ c ∧ p.2 ≠ d) := by
          constructor
          · rintro ⟨h1, h2, h3, h4⟩
            exact ⟨h1, List.mem_cons_of_mem e h2, h3, h4⟩
          · rintro ⟨h1, h2, h3, h4⟩
            rcases List.mem_cons.mp h2 with h | h
            · exfalso
              rcases not_and_or.mp he with hec | hed
              · exact h3 (h.trans (not_not.mp (by simpa using hec)))
              · exact h4 (h.trans (not_not.mp (by simpa using hed)))
            · exact ⟨h1, h, h3, h4⟩
        rw [if_congr hiff rfl rfl]

/-- The `d` loop is pointwise too: every pair of distinct candidates
other than the intermediate `c` takes one relaxation against the
start-of-pass values of column `( , c)` and row `(c, )`, which the pass
never writes. -/
theorem fwInnerD_apply (c : String) (cands : List String) :
    ∀ (ds : List String) (paths : Mat) (p : String × String),
      fwInnerD c cands paths ds p =
        if p.1 ∈ ds ∧ p.1 ≠ c ∧ p.2 ∈ cands ∧ p.2 ≠ c ∧ p.2 ≠ p.1 then
          max (paths p) (min (paths (p.1, c)) (paths (c, p.2)))
        else paths p := by
  intro ds
  induction ds with
  | nil =>
      intro paths p
      simp [fwInnerD]
  | cons d ds ih =>
      intro paths p
      obtain ⟨p1, p2⟩ := p
      rw [fwInnerD]
      by_cases hcd : c ≠ d
      · rw [if_pos hcd, ih]
        have hdc : d ≠ c := fun h => hcd h.symm
        have hr1 : fwInnerE c d paths cands (p1, c) = paths (p1, c) := by
          rw [fwInnerE_apply c d hdc]
          rw [if_neg]
          intro hcon
          exact hcon.2.2.1 rfl
        have hr2 : fwInnerE c d paths cands (c, p2) = paths (c, p2) := by
          rw [fwInnerE_apply c d hdc]
          rw [if_neg]
          intro hcon
          exact hdc hcon.1.symm
        rw [hr1, hr2]
        by_cases hfull : p1 = d ∧ p2 ∈ cands ∧ p2 ≠ c ∧ p2 ≠ d
        · obtain ⟨hp1, hp2m, hp2c, hp2d⟩ := hfull
          subst hp1
          have hE : fwInnerE c p1 paths cands (p1, p2) =
              max (paths (p1, p2))
                (min (paths (p1, c)) (paths (c, p2))) := by
            rw [fwInnerE_apply c p1 hdc]
            rw [if_pos ⟨rfl, hp2m, hp2c, hp2d⟩]
          rw [hE]
          by_cases hdds : p1 ∈ ds
          · rw [if_pos ⟨hdds, hdc, hp2m, hp2c, hp2d⟩,
              if_pos ⟨List.mem_cons_self p1 ds, hdc, hp2m, hp2c, hp2d⟩,
              max_assoc, max_self]
          · rw [if_neg (fun hcon => hdds hcon.1),
              if_pos ⟨List.mem_cons_self p1 ds, hdc, hp2m, hp2c, hp2d⟩]
        · have hE : fwInnerE c d paths cands (p1, p2) = paths (p1, p2) := by
            rw [fwInnerE_apply c d hdc]
            rw [if_neg hfull]
          rw [hE]
          have hiff : (p1 ∈ ds ∧ p1 ≠ c ∧ p2 ∈ cands ∧ p2 ≠ c ∧ p2 ≠ p1) ↔
              (p1 ∈ d :: ds ∧ p1 ≠ c ∧ p2 ∈ cands ∧ p2 ≠ c ∧ p2 ≠ p1) := by
            constructor
            · rintro ⟨h1, h2, h3, h4, h5⟩
              exact ⟨List.mem_cons_of_mem d h1, h2, h3, h4, h5⟩
            · rintro ⟨h1, h2, h3, h4, h5⟩
              rcases List.mem_cons.mp h1 with h | h
              · exact absurd ⟨h, h3, h4, fun he => h5 (h ▸ he)⟩ hfull
              · exact ⟨h, h2, h3, h4, h5⟩
          rw [if_congr hiff rfl rfl]
      · rw [if_neg hcd, ih]
        have hcd' : c = d := not_not.mp (by simpa using hcd)
        have hiff : ((p1, p2).1 ∈ ds ∧ (p1, p2).1 ≠ c ∧ (p1, p2).2 ∈ cands ∧
            (p1, p2).2 ≠ c ∧ (p1, p2).2 ≠ (p1, p2).1) ↔
            ((p1, p2).1 ∈ d :: ds ∧ (p1, p2).1 ≠ c ∧ (p1, p2).2 ∈ cands ∧
            (p1, p2).2 ≠ c ∧ (p1, p2).2 ≠ (p1, p2).1) := by
          constructor
          · rintro ⟨h1, h2, h3, h4, h5⟩
            exact ⟨List.mem_cons_of_mem d h1, h2, h3, h4, h5⟩
          · rintro ⟨h1, h2, h3, h4, h5⟩
            rcases List.mem_cons.mp h1 with h | h
            · exact absurd (h.trans hcd'.symm) h2
            · exact ⟨h, h2, h3, h4, h5⟩
        rw [if_congr hiff rfl rfl]

/-- The max-min triangle property, restricted to triples whose middle
vertex lies in the processed-intermediates set `S`. -/
def TriOK (P : Mat) (S cands : List String) : Prop :=
  ∀ a b c, a ∈ cands → c ∈ cands → b ∈ S →
    a ≠ b → b ≠ c → a ≠ c →
    min (P (a, b)) (P (b, c)) ≤ P (a, c)

theorem fwInnerD_preserves (c0 : String) (cands S : List String)
    (P : Mat) (hc0 : c0 ∈ cands) (hS : ∀ s ∈ S, s ∈ cands)
    (hT : TriOK P S cands) :
    TriOK (fwInnerD c0 cands P cands) (c0 :: S) cands := by
  intro a b c ha hc hb hab hbc hac
  have hA := fwInnerD_apply c0 cands cands P
  by_cases hbc0 : b = c0
  · subst hbc0
    have h1 : fwInnerD b cands P cands (a, b) = P (a, b) := by
      rw [hA (a, b), if_neg]
      intro hcon
      exact hcon.2.2.2.1 rfl
    have h2 : fwInnerD b cands P cands (b, c) = P (b, c) := by
      rw [hA (b, c), if_neg]
      intro hcon
      exact hcon.2.1 rfl
    have h3 : fwInnerD b cands P cands (a, c) =
        max (P (a, c)) (min (P (a, b)) (P (b, c))) := by
      rw [hA (a, c), if_pos]
      exact ⟨ha, hab, hc, fun h => hbc h.symm, fun h => hac h.symm⟩
    rw [h1, h2, h3]
    omega
  · have hbS : b ∈ S := by
      rcases List.mem_cons.mp hb with h | h
      · exact absurd h hbc0
      · exact h
    have hbcand : b ∈ cands := hS b hbS
    by_cases hac0 : a = c0
    · subst hac0
      have h1 : fwInnerD a cands P cands (a, b) = P (a, b) := by
        rw [hA (a, b), if_neg]
        intro hcon
        exact hcon.2.1 rfl
      have h2 : fwInnerD a cands P cands (b, c) =
          max (P (b, c)) (min (P (b, a)) (P (a, c))) := by
        rw [hA (b, c), if_pos]
        exact ⟨hbcand, hbc0, hc, fun h => hac h.symm, fun h => hbc h.symm⟩
      have h3 : fwInnerD a cands P cands (a, c) = P (a, c) := by
        rw [hA (a, c), if_neg]
        intro hcon
        exact hcon.2.1 rfl
      rw [h1, h2, h3]
      have H := hT a b c ha hc hbS hab hbc hac
      omega
    · by_cases hcc0 : c = c0
      · subst hcc0
        have h1 : fwInnerD c cands P cands (a, b) =
            max (P (a, b)) (min (P (a, c)) (P (c, b))) := by
          rw [hA (a, b), if_pos]
          exact ⟨ha, hac, hbcand, hbc0, fun h => hab h.symm⟩
        have h2 : fwInnerD c cands P cands (b, c) = P (b, c) := by
          rw [hA (b, c), if_neg]
          intro hcon
          exact hcon.2.2.2.1 rfl
        have h3 : fwInnerD c cands P cands (a, c) = P (a, c) := by
          rw [hA (a, c), if_neg]
          intro hcon
          exact hcon.2.2.2.1 rfl
        rw [h1, h2, h3]
        have H := hT a b c ha hc0 hbS hab hbc hac
        omega
      · have h1 : fwInnerD c0 cands P cands (a, b) =
            max (P (a, b)) (min (P (a, c0)) (P (c0, b))) := by
          rw [hA (a, b), if_pos]
          exact ⟨ha, hac0, hbcand, hbc0, fun h => hab h.symm⟩
        have h2 : fwInnerD c0 cands P cands (b, c) =
            max (P (b, c)) (min (P (b, c0)) (P (c0, c))) := by
          rw [hA (b, c), if_pos]
          exact ⟨hbcand, hbc0, hc, hcc0, fun h => hbc h.symm⟩
        have h3 : fwInnerD c0 cands P cands (a, c) =
            max (P (a, c)) (min (P (a, c0)) (P (c0, c))) := by
          rw [hA (a, c), if_pos]
          exact ⟨ha, hac0, hc, hcc0, fun h => hac h.symm⟩
        rw [h1, h2, h3]
        have H1 := hT a b c ha hc hbS hab hbc hac
        have H2 := hT a b c0 ha hc0 hbS hab hbc0 hac0
        have H3 := hT c0 b c hc0 hc hbS (fun h => hbc0 h.symm) hbc
          (fun h => hcc0 h.symm)
        omega

theorem TriOK_mono {P : Mat} {S1 S2 cands : List String}
    (hsub : ∀ b ∈ S1, b ∈ S2) (hT : TriOK P S2 cands) :
    TriOK P S1 cands :=
  fun a b c ha hc hb hab hbc hac => hT a b c ha hc (hsub b hb) hab hbc hac

theorem fwOuter_triangle :
    ∀ (cs : List String) (cands S : List String) (P : Mat),
      (∀ s ∈ S, s ∈ cands) → (∀ x ∈ cs, x ∈ cands) →
      TriOK P S cands →
      TriOK (fwOuter cands P cs) (cs ++ S) cands := by
  intro cs
  induction cs with
  | nil =>
      intro cands S P hS _ hT
      simpa [fwOuter] using hT
  | cons c0 cs ih =>
      intro cands S P hS hcs hT
      have hc0 : c0 ∈ cands := hcs c0 (List.mem_cons_self c0 cs)
      have hstep := fwInnerD_preserves c0 cands S P hc0 hS hT
      have hS' : ∀ s ∈ c0 :: S, s ∈ cands := by
        intro s hs
        rcases List.mem_cons.mp hs with rfl | hs'
        · exact hc0
        · exact hS s hs'
      have hrec := ih cands (c0 :: S) (fwInnerD c0 cands P cands)
        hS' (fun x hx => hcs x (List.mem_cons_of_mem c0 hx)) hstep
      have hout : fwOuter cands P (c0 :: cs) =
          fwOuter cands (fwInnerD c0 cands P cands) cs := rfl
      rw [hout]
      apply TriOK_mono _ hrec
      intro b hbmem
      rcases List.mem_append.mp hbmem with h | h
      · rcases List.mem_cons.mp h with rfl | h'
        · exact List.mem_append.mpr (Or.inr (List.mem_cons_self b S))
        · exact List.mem_append.mpr (Or.inl h')
      · exact List.mem_append.mpr (Or.inr (List.mem_cons_of_mem c0 h))

/-- C7: after `_strongest_paths`' single Floyd-Warshall-style pass (one
full sweep per intermediate candidate over the matrix initialised with
`prefs[(A, B)]` when it beats the reverse entry, else `0`), the result is
max-min transitive: `path(A, C) ≥ min(path(A, B), path(B, C))` for all
distinct candidates of its domain. -/
theorem strongest_paths_triangle (ballots : List Ballot) (a b c : String)
    (ha : a ∈ condCands (pairwise_preferences ballots).1)
    (hb : b ∈ condCands (pairwise_preferences ballots).1)
    (hc : c ∈ condCands (pairwise_preferences ballots).1)
    (hab : a ≠ b) (hbc : b ≠ c) (hac : a ≠ c) :
    min ((strongest_paths ballots).2 (a, b))
        ((strongest_paths ballots).2 (b, c)) ≤
      (strongest_paths ballots).2 (a, c) := by
  have htri := fwOuter_triangle (condCands (pairwise_preferences ballots).1)
    (condCands (pairwise_preferences ballots).1) []
    (fun p => if (pairwise_preferences ballots).2 p >
        (pairwise_preferences ballots).2 (p.2, p.1)
      then (pairwise_preferences ballots).2 p else 0)
    (by intro s hs; simp at hs) (fun x hx => hx)
    (by intro a b c _ _ hb; simp at hb)
  exact htri a b c ha hc (by simpa using hb) hab hbc hac

/-- Witness for C7 at a concrete three-candidate election. -/
theorem strongest_paths_triangle_witness :
    min ((strongest_paths
          [Ballot.mk [Slot.cand "X", Slot.cand "Y", Slot.cand "Z"],
           Ballot.mk [Slot.cand "Y", Slot.cand "Z", Slot.cand "X"],
           Ballot.mk [Slot.cand "Z", Slot.cand "X", Slot.cand "Y"]]).2
        ("X", "Y"))
      ((strongest_paths
          [Ballot.mk [Slot.cand "X", Slot.cand "Y", Slot.cand "Z"],
           Ballot.mk [Slot.cand "Y", Slot.cand "Z", Slot.cand "X"],
           Ballot.mk [Slot.cand "Z", Slot.cand "X", Slot.cand "Y"]]).2
        ("Y", "Z")) ≤
      (strongest_paths
          [Ballot.mk [Slot.cand "X", Slot.cand "Y", Slot.cand "Z"],
           Ballot.mk [Slot.cand "Y", Slot.cand "Z", Slot.cand "X"],
           Ballot.mk [Slot.cand "Z", Slot.cand "X", Slot.cand "Y"]]).2
        ("X", "Z") :=
  strongest_paths_triangle _ "X" "Y" "Z" (by decide) (by decide) (by decide)
    (by decide) (by decide) (by decide)

theorem mem_pref_keys (ballots : List Ballot) (a b : String) :
    (a, b) ∈ (pairwise_preferences ballots).1 ↔
      (a ∈ candidatesOf (ballots.map Ballot.cleaned_votes) ∧
        b ∈ candidatesOf (ballots.map Ballot.cleaned_votes) ∧ a ≠ b) := by
  unfold pairwise_preferences
  simp only [List.mem_flatMap, List.mem_map, List.mem_filter]
  constructor
  · rintro ⟨x, hx, y, ⟨hy1, hy2⟩, heq⟩
    have hxa : x = a := congrArg Prod.fst heq
    have hyb : y = b := congrArg Prod.snd heq
    subst hxa
    subst hyb
    exact ⟨hx, hy1, of_decide_eq_true hy2⟩
  · rintro ⟨ha, hb, hab⟩
    exact ⟨a, ha, b, ⟨hb, by simpa using hab⟩, rfl⟩

theorem condCands_subset (ballots : List Ballot) :
    ∀ x ∈ condCands (pairwise_preferences ballots).1,
      x ∈ candidatesOf (ballots.map Ballot.cleaned_votes) := by
  intro x hx
  have hx' := mem_keysInOrder.mp hx
  rcases List.mem_map.mp hx' with ⟨⟨a, b⟩, hab, rfl⟩
  exact ((mem_pref_keys ballots a b).mp hab).1

/-- C10: the matrix's candidate universe is exactly the set of candidates
appearing in some ballot's cleaned sequence — its keys are precisely the
ordered pairs of distinct such candidates, so a contest candidate ranked
on no ballot appears in no entry — and neither the Condorcet nor the
Schulze winner can lie outside that universe. -/
theorem pref_matrix_domain (ballots : List Ballot) :
    (∀ x, x ∈ candidatesOf (ballots.map Ballot.cleaned_votes) ↔
        ∃ bl ∈ ballots, x ∈ bl.cleaned_votes) ∧
      (∀ a b, (a, b) ∈ (pairwise_preferences ballots).1 ↔
        (a ∈ candidatesOf (ballots.map Ballot.cleaned_votes) ∧
          b ∈ candidatesOf (ballots.map Ballot.cleaned_votes) ∧ a ≠ b)) ∧
      (∀ c, run_condorcet pairwise_preferences ballots = some c →
        c ∈ candidatesOf (ballots.map Ballot.cleaned_votes)) ∧
      (∀ c, run_schulze ballots = some c →
        c ∈ candidatesOf (ballots.map Ballot.cleaned_votes)) := by
  refine ⟨?_, mem_pref_keys ballots, ?_, ?_⟩
  · intro x
    rw [mem_candidatesOf]
    constructor
    · rintro ⟨v, hv, hxv⟩
      rcases List.mem_map.mp hv with ⟨bl, hbl, rfl⟩
      exact ⟨bl, hbl, hxv⟩
    · rintro ⟨bl, hbl, hx⟩
      exact ⟨bl.cleaned_votes, List.mem_map_of_mem _ hbl, hx⟩
  · intro c h
    unfold run_condorcet at h
    exact condCands_subset ballots c (List.mem_of_find?_eq_some h)
  · intro c h
    unfold run_schulze run_condorcet at h
    exact condCands_subset ballots c (List.mem_of_find?_eq_some h)

/-- Witness for C10 at a concrete ballot set. -/
theorem pref_matrix_domain_witness :
    ("A", "B") ∈ (pairwise_preferences
        [Ballot.mk [Slot.cand "A", Slot.cand "B", Slot.blank],
         Ballot.mk [Slot.cand "C", Slot.blank, Slot.blank]]).1 :=
  ((pref_matrix_domain
      [Ballot.mk [Slot.cand "A", Slot.cand "B", Slot.blank],
       Ballot.mk [Slot.cand "C", Slot.blank, Slot.blank]]).2.1 "A" "B").mpr
    (by decide)

/-- Witness for C6: on ballots `[A, B]` and `[A]` the Condorcet winner is
`A`, via the characterization. -/
theorem run_condorcet_iff_witness :
    run_condorcet pairwise_preferences
        [Ballot.mk [Slot.cand "A", Slot.cand "B", Slot.blank],
         Ballot.mk [Slot.cand "A", Slot.blank, Slot.blank]] = some "A" :=
  (run_condorcet_iff
      [Ballot.mk [Slot.cand "A", Slot.cand "B", Slot.blank],
       Ballot.mk [Slot.cand "A", Slot.blank, Slot.blank]] "A").mpr (by decide)

/-- Witness for C8 (amended) at concrete positions. -/
theorem borda_default_weights_witness :
    borda_count_fn 0 = (ranksAllowed : Int) - (0 : Nat) ∧
      borda_count_fn 1 < borda_count_fn 0 :=
  ⟨borda_default_weights.1 0, borda_default_weights.2.2.2.2 0 1 (by decide)⟩
